import Mathlib

/-!
Verification of the RedGEM subnetwork-extraction algorithm
(`pytfa/redgem/redgem.py`) against its natural-language specification.

The Python code is shallowly embedded: metabolite identifiers are `String`,
sets iterated by the code become `List String` (iteration order fixed),
collected result sets become `Finset`, the externally-mutated path memo
`self._path_dict` becomes an explicit `Memo` value threaded through the
recursion, and the recursion of `retrieve_all_paths` is driven by a fuel
parameter so that non-termination (impossible on BFS-produced ancestor
maps) surfaces as `none`.
-/

/-- A path is the tuple of metabolite identifiers built by
`retrieve_all_paths` (`path + (dest_node,)` becomes `p ++ [dest]`). -/
abbrev NodePath := List String

/-- The memo `self._path_dict`: maps a node to the list of paths already
computed for it, `none` when the key is absent. -/
abbrev Memo := String → Option (List NodePath)

/-- The `ancestors` dictionary of one BFS run: node to list of immediate
ancestors; absent keys are read as `[]`. -/
abbrev AncMap := String → List String

/-- One iteration of the `for previous_node in ancestors[dest_node]` loop of
`retrieve_all_paths`: run the recursive call `recf` on the ancestor (threading
the memo) and append each returned path extended by `dest` to the accumulated
`new_paths`. -/
def retrieveStep (dest : String) (recf : String → Memo → Option (List NodePath × Memo))
    (acc : Option (List NodePath × Memo)) (prev : String) :
    Option (List NodePath × Memo) :=
  match acc with
  | none => none
  | some (pathsAcc, m) =>
      match recf prev m with
      | none => none
      | some (ps, m2) => some (pathsAcc ++ ps.map (fun p => p ++ [dest]), m2)

/-- Embedding of `RedGEM.retrieve_all_paths` (redgem.py lines 246-257) for
`init_dict=False`.  Mirrors the Python statement for statement:
if `dest = src` the memo entry is overwritten with `[(src,)]`; if the node
is not memoized, paths are accumulated over `ancestors[dest_node]` by
recursion (threading the memo) and the result is memoized.  `fuel` bounds
the recursion depth; exhaustion gives `none`. -/
def retrieveGo (anc : AncMap) (src : String) :
    Nat → String → Memo → Option (List NodePath × Memo)
  | 0, _, _ => none
  | fuel+1, dest, memo =>
      let memo1 := if dest = src then Function.update memo dest (some [[src]]) else memo
      match memo1 dest with
      | some ps => some (ps, memo1)
      | none =>
          match (anc dest).foldl
            (retrieveStep dest (fun d mm => retrieveGo anc src fuel d mm))
            (some ([], memo1)) with
          | none => none
          | some (newPaths, m) => some (newPaths, Function.update m dest (some newPaths))

/-- Embedding of the full `retrieve_all_paths` entry point: when
`init_dict` is true the memo `self._path_dict` is reset to `{}` first. -/
def retrieve_all_paths (anc : AncMap) (src : String) (fuel : Nat) (dest : String)
    (initDict : Bool) (memo : Memo) : Option (List NodePath × Memo) :=
  retrieveGo anc src fuel dest (if initDict then fun _ => none else memo)

/-- The node-sequences from `src` to a node that are consistent with the
ancestor chain, as the specification describes them: for the source itself
only the one-element path, otherwise every path to an immediate ancestor
extended by the node. -/
inductive SpecPath (anc : AncMap) (src : String) : String → NodePath → Prop
  | base : SpecPath anc src src [src]
  | step (t a : String) (p : NodePath) (ht : t ≠ src) (ha : a ∈ anc t)
      (hp : SpecPath anc src a p) : SpecPath anc src t (p ++ [t])

/-- A memo is correct when every stored entry holds exactly the
ancestor-consistent paths of its node. -/
def MemoOK (anc : AncMap) (src : String) (memo : Memo) : Prop :=
  ∀ node ps, memo node = some ps → ∀ p, p ∈ ps ↔ SpecPath anc src node p

lemma specPath_src_iff (anc : AncMap) (src : String) (p : NodePath) :
    SpecPath anc src src p ↔ p = [src] := by
  constructor
  · intro h
    cases h with
    | base => rfl
    | step t a q ht _ _ => exact absurd rfl ht
  · rintro rfl
    exact SpecPath.base

lemma memoOK_empty (anc : AncMap) (src : String) :
    MemoOK anc src (fun _ => none) := by
  intro node ps h
  exact absurd h (by simp)

lemma memoOK_update (anc : AncMap) (src : String) (memo : Memo) (node : String)
    (ps : List NodePath) (hOK : MemoOK anc src memo)
    (hps : ∀ p, p ∈ ps ↔ SpecPath anc src node p) :
    MemoOK anc src (Function.update memo node (some ps)) := by
  intro node' ps' h
  by_cases hne : node' = node
  · subst hne
    rw [Function.update_same] at h
    obtain rfl : ps = ps' := by injection h
    exact hps
  · rw [Function.update_noteq hne] at h
    exact hOK node' ps' h

/-- Correctness of the memoized recursion: starting from a correct memo, a
successful run returns exactly the ancestor-consistent paths of the
destination and leaves the memo correct. -/
lemma retrieveGo_correct (anc : AncMap) (src : String) :
    ∀ (fuel : Nat) (dest : String) (memo : Memo) (ps : List NodePath) (memo2 : Memo),
      MemoOK anc src memo →
      retrieveGo anc src fuel dest memo = some (ps, memo2) →
      MemoOK anc src memo2 ∧ ∀ p, p ∈ ps ↔ SpecPath anc src dest p := by
  intro fuel
  induction fuel with
  | zero =>
      intro dest memo ps memo2 _ h
      exact absurd h (by simp [retrieveGo])
  | succ fuel ihF =>
      intro dest memo ps memo2 hOK h
      rw [retrieveGo] at h
      set m1 := if dest = src then Function.update memo dest (some [[src]]) else memo with hm1
      have hOK1 : MemoOK anc src m1 := by
        rw [hm1]
        by_cases hds0 : dest = src
        · rw [if_pos hds0]
          refine memoOK_update anc src memo dest [[src]] hOK ?_
          intro p
          rw [hds0, specPath_src_iff]
          simp
        · rw [if_neg hds0]
          exact hOK
      cases hfind : m1 dest with
      | some ps0 =>
          simp only [hfind, Option.some.injEq, Prod.mk.injEq] at h
          obtain ⟨rfl, rfl⟩ := h
          exact ⟨hOK1, hOK1 dest ps0 hfind⟩
      | none =>
          have hds : dest ≠ src := by
            intro hcontra
            rw [hm1] at hfind
            rw [if_pos hcontra] at hfind
            rw [Function.update_same] at hfind
            exact Option.noConfusion hfind
          simp only [hfind] at h
          have fold_spec :
              ∀ (l : List String) (acc : List NodePath) (m : Memo)
                (res : List NodePath × Memo),
                MemoOK anc src m →
                l.foldl (retrieveStep dest (fun d mm => retrieveGo anc src fuel d mm))
                  (some (acc, m)) = some res →
                MemoOK anc src res.2 ∧
                  ∀ p, p ∈ res.1 ↔
                    p ∈ acc ∨ ∃ a, a ∈ l ∧ ∃ q, SpecPath anc src a q ∧ p = q ++ [dest] := by
            intro l
            induction l with
            | nil =>
                intro acc m res hOKm hfold
                simp only [List.foldl_nil, Option.some.injEq] at hfold
                subst hfold
                refine ⟨hOKm, ?_⟩
                intro p
                simp
            | cons prev rest ihL =>
                intro acc m res hOKm hfold
                simp only [List.foldl_cons] at hfold
                cases hr : retrieveGo anc src fuel prev m with
                | none =>
                    simp only [retrieveStep, hr] at hfold
                    have hnone : ∀ (l' : List String),
                        l'.foldl
                          (retrieveStep dest (fun d mm => retrieveGo anc src fuel d mm))
                          none = none := by
                      intro l'
                      induction l' with
                      | nil => rfl
                      | cons x xs ihx => simpa [retrieveStep] using ihx
                    rw [hnone rest] at hfold
                    exact Option.noConfusion hfold
                | some pm =>
                    obtain ⟨ps1, m2⟩ := pm
                    simp only [retrieveStep, hr] at hfold
                    obtain ⟨hOK2, hps1⟩ := ihF prev m ps1 m2 hOKm hr
                    obtain ⟨hOK3, hmem⟩ :=
                      ihL (acc ++ ps1.map (fun p => p ++ [dest])) m2 res hOK2 hfold
                    refine ⟨hOK3, ?_⟩
                    intro p
                    rw [hmem p]
                    simp only [List.mem_append, List.mem_map, List.mem_cons]
                    constructor
                    · rintro ((hp | ⟨q, hq, rfl⟩) | ⟨a, ha, q, hq, rfl⟩)
                      · exact Or.inl hp
                      · exact Or.inr ⟨prev, Or.inl rfl, q, (hps1 q).1 hq, rfl⟩
                      · exact Or.inr ⟨a, Or.inr ha, q, hq, rfl⟩
                    · rintro (hp | ⟨a, (rfl | ha), q, hq, rfl⟩)
                      · exact Or.inl (Or.inl hp)
                      · exact Or.inl (Or.inr ⟨q, (hps1 q).2 hq, rfl⟩)
                      · exact Or.inr ⟨a, ha, q, hq, rfl⟩
          cases hf : (anc dest).foldl
              (retrieveStep dest (fun d mm => retrieveGo anc src fuel d mm))
              (some ([], m1)) with
          | none =>
              simp only [hf] at h
              exact Option.noConfusion h
          | some npm =>
              obtain ⟨newPaths, m2⟩ := npm
              simp only [hf, Option.some.injEq, Prod.mk.injEq] at h
              obtain ⟨hOK2, hmem⟩ := fold_spec (anc dest) [] m1 (newPaths, m2) hOK1 hf
              have hchar : ∀ p, p ∈ newPaths ↔ SpecPath anc src dest p := by
                intro p
                rw [hmem p]
                simp only [List.not_mem_nil, false_or]
                constructor
                · rintro ⟨a, ha, q, hq, rfl⟩
                  exact SpecPath.step dest a q hds ha hq
                · intro hsp
                  cases hsp with
                  | base => exact absurd rfl hds
                  | step t a q ht ha hq => exact ⟨a, ha, q, hq, rfl⟩
              obtain ⟨rfl, rfl⟩ := h
              exact ⟨memoOK_update anc src m2 dest newPaths hOK2 hchar, hchar⟩

/-- C1: for every ancestors map, source and destination, a completed run of
the Path Enumerator `retrieve_all_paths` (called as the BFS driver calls
it, with `init_dict=True`) returns exactly the set of node-sequences from
source to destination consistent with the ancestor chain: the single path
`(src,)` when the destination is the source, and otherwise the union over
the immediate ancestors `a` of the destination of the paths to `a`
extended by the destination. -/
theorem retrieve_all_paths_spec (anc : AncMap) (src dest : String) (fuel : Nat)
    (memo0 : Memo) (ps : List NodePath) (memo2 : Memo)
    (h : retrieve_all_paths anc src fuel dest true memo0 = some (ps, memo2)) :
    ∀ p, p ∈ ps ↔ SpecPath anc src dest p := by
  have h' : retrieveGo anc src fuel dest (fun _ => none) = some (ps, memo2) := by
    simpa [retrieve_all_paths] using h
  exact (retrieveGo_correct anc src fuel dest (fun _ => none) ps memo2
    (memoOK_empty anc src) h').2

/-- The ancestors map of the specification's worked example:
`{B: [A], C: [A], D: [B, C]}`. -/
def ancC1 : AncMap :=
  fun n => if n = "B" then ["A"] else if n = "C" then ["A"] else if n = "D" then ["B", "C"] else []

/-- Witness for C1: on the worked example the enumerator succeeds with the
result list `[(A,B,D), (A,C,D)]`, the returned path `(A,B,D)` is
ancestor-consistent, and the never-returned shortcut `(A,D)` is not. -/
theorem retrieve_all_paths_spec_witness :
    (["A", "B", "D"] ∈ [["A", "B", "D"], ["A", "C", "D"]]
      ↔ SpecPath ancC1 "A" "D" ["A", "B", "D"])
    ∧ (["A", "D"] ∈ [["A", "B", "D"], ["A", "C", "D"]]
      ↔ SpecPath ancC1 "A" "D" ["A", "D"]) := by
  obtain ⟨ps, m2, h, hps⟩ :
      ∃ ps m2, retrieve_all_paths ancC1 "A" 5 "D" true (fun _ => none) = some (ps, m2)
        ∧ ps = [["A", "B", "D"], ["A", "C", "D"]] := ⟨_, _, rfl, rfl⟩
  constructor
  · exact hps ▸ retrieve_all_paths_spec ancC1 "A" "D" 5 (fun _ => none) ps m2 h ["A", "B", "D"]
  · exact hps ▸ retrieve_all_paths_spec ancC1 "A" "D" 5 (fun _ => none) ps m2 h ["A", "D"]

/-- Embedding of `RedGEM.is_node_allowed` (redgem.py lines 232-244).
`mets` is `self._subsystem_metabolites_id`; the Python `int` arithmetic on
the step index `i` and the depth `d` is carried out in `ℤ`, so `d - 1` is
`-1` when `d = 0` exactly as in Python. -/
def is_node_allowed (mets : String → List String) (node : String) (i : ℤ)
    (explored : List String) (subsystem_i subsystem_j : String) (d : ℤ) : Bool :=
  if node ∈ explored then false
  else if subsystem_i ≠ subsystem_j ∧ node ∈ mets subsystem_i then false
  else if i < d - 1 ∧ node ∈ mets subsystem_j then false
  else if i = d - 1 ∧ node ∉ mets subsystem_j then false
  else true

/-- C2: the subsystem-to-subsystem admission predicate admits a candidate
node if and only if it is unexplored, it does not re-enter the source
subsystem (when the subsystems differ), it does not land in the destination
subsystem before the last step, and at the last step it does land in the
destination subsystem. -/
theorem is_node_allowed_iff (mets : String → List String) (node : String) (i : ℤ)
    (explored : List String) (subsystem_i subsystem_j : String) (d : ℤ) :
    is_node_allowed mets node i explored subsystem_i subsystem_j d = true ↔
      (node ∉ explored ∧
        ¬(subsystem_i ≠ subsystem_j ∧ node ∈ mets subsystem_i) ∧
        ¬(i < d - 1 ∧ node ∈ mets subsystem_j) ∧
        ¬(i = d - 1 ∧ node ∉ mets subsystem_j)) := by
  unfold is_node_allowed
  split_ifs with h1 h2 h3 h4 <;> simp_all

/-- The `for node in frontier` loop shared by
`breadth_search_subsystems_paths_length_d` (redgem.py lines 225-230) and
`breadth_search_extracellular_system_paths` (lines 304-309), restricted to
the path bookkeeping: every frontier node is enumerated by a fresh
top-level call `self.retrieve_all_paths(node, metabolite_id, ancestors)`
(so with the default `init_dict=True`), the memo `self._path_dict` is
threaded on, and the returned paths are unioned into the accumulated
path-result set. -/
def process_frontier (anc : AncMap) (src : String) (fuel : Nat) :
    List String → Finset NodePath → Memo → Option (Finset NodePath × Memo)
  | [], acc, memo => some (acc, memo)
  | node :: rest, acc, memo =>
      match retrieve_all_paths anc src fuel node true memo with
      | none => none
      | some (paths, memo2) =>
          process_frontier anc src fuel rest (acc ∪ paths.toFinset) memo2

/-- Ancestors map with a sub-path shared by the two frontier nodes `C` and
`D`: `{B: [A], C: [B], D: [B]}`. -/
def ancC5 : AncMap :=
  fun n => if n = "B" then ["A"] else if n = "C" then ["B"] else if n = "D" then ["B"] else []

/-- Counterexample to C5: enumerating frontier node `C` stores a memo entry
for `C`, yet after the same invocation goes on to frontier node `D` the
memo no longer holds that entry — each top-level call resets
`self._path_dict`, so the memo does not persist across the frontier
destinations of one search invocation. -/
theorem path_memo_not_shared_across_destinations :
    (∃ ps m1, retrieve_all_paths ancC5 "A" 5 "C" true (fun _ => none) = some (ps, m1)
        ∧ m1 "C" = some [["A", "B", "C"]])
    ∧ (process_frontier ancC5 "A" 5 ["C", "D"] ∅ (fun _ => none)).map
        (fun r => r.2 "C") = some none :=
  ⟨⟨_, _, rfl, rfl⟩, rfl⟩

/-- C5 (amended): the memo is reset at the start of every top-level
`retrieve_all_paths` call — that is, once per frontier destination node,
not once per search invocation — so a top-level enumeration is unaffected
by any memo state left behind by earlier destinations or earlier
invocations, and memoization is effective only within the recursive
enumeration of a single destination. -/
theorem path_memo_reset_per_destination (anc : AncMap) (src : String) (fuel : Nat)
    (dest : String) (m m' : Memo) :
    retrieve_all_paths anc src fuel dest true m
        = retrieve_all_paths anc src fuel dest true m'
    ∧ ∀ (frontier : List String) (acc : Finset NodePath),
        (process_frontier anc src fuel frontier acc m).map Prod.fst
          = (process_frontier anc src fuel frontier acc m').map Prod.fst := by
  refine ⟨rfl, ?_⟩
  intro frontier acc
  cases frontier with
  | nil => rfl
  | cons node rest => rfl

/-- State of one inner BFS run of the breadth-search methods: the current
frontier, the explored set and the ancestors map.  Python's sets are lists
with set-insertion semantics (a fixed iteration order). -/
structure BfsSt where
  frontier : List String
  explored : List String
  anc : AncMap

/-- One expansion step (redgem.py lines 199-209 and 287-297): for every
`current_node` of the frontier, for every distinct graph successor, if the
admission predicate (closed over the step index and the explored set)
accepts it, add it to `new_nodes` (set add) and append `current_node` to
its ancestor list. -/
def bfs_step (adj : String → List String) (allowed : String → Bool)
    (frontier : List String) (anc0 : AncMap) : List String × AncMap :=
  frontier.foldl
    (fun acc current =>
      ((adj current).dedup).foldl
        (fun acc2 newNode =>
          if allowed newNode then
            (if newNode ∈ acc2.1 then acc2.1 else acc2.1 ++ [newNode],
             Function.update acc2.2 newNode (acc2.2 newNode ++ [current]))
          else acc2)
        acc)
    ([], anc0)

/-- The `for i in range(d)` expansion loop (redgem.py lines 198-211 and
286-299): after each step the new nodes join the explored set and become
the frontier. -/
def bfs_iter (adj : String → List String)
    (allowedAt : Nat → List String → String → Bool) :
    Nat → Nat → BfsSt → BfsSt
  | _, 0, st => st
  | i, steps+1, st =>
      let p := bfs_step adj (allowedAt i st.explored) st.frontier st.anc
      bfs_iter adj allowedAt (i+1) steps
        { frontier := p.1
          explored := st.explored ++ p.1.filter (fun x => decide (x ∉ st.explored))
          anc := p.2 }

/-- One full inner BFS run from `start` (redgem.py lines 195-211):
`ancestors = {}`, `frontier = {start}`, `explored = {start}`, then `d`
expansion steps. -/
def bfs_run (adj : String → List String)
    (allowedAt : Nat → List String → String → Bool) (d : Nat) (start : String) : BfsSt :=
  bfs_iter adj allowedAt 0 d { frontier := [start], explored := [start], anc := fun _ => [] }

/-- The configuration the search methods read from `self`: the graph
adjacency, `self._subsystem_metabolites_id`, `self._extracellular_system`,
`self._subsystem_names` and the degrees `d` and `n`. -/
structure SearchCfg where
  adj : String → List String
  mets : String → List String
  extracellular : List String
  subsystems : List String
  d : Nat
  n : Nat

/-- The admission predicate used by the subsystem-to-subsystem BFS: the
step index is a `Nat` loop counter, cast to `ℤ` for `is_node_allowed`. -/
def subsys_allowedAt (cfg : SearchCfg) (subsystem_i subsystem_j : String) (d : Nat) :
    Nat → List String → String → Bool :=
  fun i explored node =>
    is_node_allowed cfg.mets node (i : ℤ) explored subsystem_i subsystem_j (d : ℤ)

/-- The frontier used by the path bookkeeping, after the `d == 0`
correction of redgem.py lines 213-214 (`frontier = {}` when the start is
not in the destination subsystem). -/
def effective_frontier (cfg : SearchCfg) (subsystem_i subsystem_j : String)
    (d : Nat) (start : String) : List String :=
  if d = 0 ∧ start ∉ cfg.mets subsystem_j then []
  else (bfs_run cfg.adj (subsys_allowedAt cfg subsystem_i subsystem_j d) d start).frontier

/-- Processing of one start metabolite by
`breadth_search_subsystems_paths_length_d`: run the BFS, fix up the
depth-0 frontier, then enumerate and collect the paths of every frontier
node. -/
def subsys_search_step (cfg : SearchCfg) (subsystem_i subsystem_j : String)
    (d fuel : Nat) (start : String) (p : Finset NodePath × Memo) :
    Option (Finset NodePath × Memo) :=
  process_frontier
    (bfs_run cfg.adj (subsys_allowedAt cfg subsystem_i subsystem_j d) d start).anc
    start fuel (effective_frontier cfg subsystem_i subsystem_j d start) p.1 p.2

/-- Embedding of `breadth_search_subsystems_paths_length_d` (redgem.py
lines 192-230) restricted to its path-result effect: iterate over the
source subsystem's metabolites and accumulate, for every start, the paths
of every frontier node into the `(i, j, d)` path-result set
`self._intermediate_paths[subsystem_i][subsystem_j][d]` (threading the
path memo). -/
def breadth_search_subsystems_paths_length_d (cfg : SearchCfg)
    (subsystem_i subsystem_j : String) (d fuel : Nat)
    (acc : Finset NodePath) (memo : Memo) : Option (Finset NodePath × Memo) :=
  (cfg.mets subsystem_i).foldl
    (fun st start => st.bind (subsys_search_step cfg subsystem_i subsystem_j d fuel start))
    (some (acc, memo))

lemma subsys_search_step_d0 (cfg : SearchCfg) (si sj : String) (fuel : Nat)
    (start : String) (p : Finset NodePath × Memo) :
    ∃ m2, subsys_search_step cfg si sj 0 (fuel+1) start p
      = some ((if start ∈ cfg.mets sj then p.1 ∪ {[start]} else p.1), m2) := by
  by_cases hm : start ∈ cfg.mets sj
  · refine ⟨Function.update (fun _ => none) start (some [[start]]), ?_⟩
    rw [subsys_search_step]
    have hfr : effective_frontier cfg si sj 0 start = [start] := by
      rw [effective_frontier]
      rw [if_neg (by simp [hm])]
      rfl
    rw [hfr]
    rw [if_pos hm]
    show process_frontier _ start (fuel+1) [start] p.1 p.2 = _
    rw [process_frontier]
    have hret : retrieve_all_paths
        (bfs_run cfg.adj (subsys_allowedAt cfg si sj 0) 0 start).anc
        start (fuel+1) start true p.2
        = some ([[start]], Function.update (fun _ => none) start (some [[start]])) := by
      rw [retrieve_all_paths, retrieveGo]
      simp [Function.update_same]
    rw [hret]
    show process_frontier _ start (fuel+1) [] (p.1 ∪ [[start]].toFinset) _ = _
    rw [process_frontier]
    simp
  · refine ⟨p.2, ?_⟩
    rw [subsys_search_step]
    have hfr : effective_frontier cfg si sj 0 start = [] := by
      rw [effective_frontier, if_pos ⟨rfl, hm⟩]
    rw [hfr]
    rw [if_neg hm]
    rfl

lemma depth_zero_fold (cfg : SearchCfg) (si sj : String) (fuel : Nat) :
    ∀ (l : List String) (acc : Finset NodePath) (memo : Memo),
      ∃ memo2,
        l.foldl (fun st start => st.bind (subsys_search_step cfg si sj 0 (fuel+1) start))
            (some (acc, memo))
          = some (acc ∪ ((l.filter (fun m => decide (m ∈ cfg.mets sj))).map
              (fun m => [m])).toFinset, memo2) := by
  intro l
  induction l with
  | nil =>
      intro acc memo
      exact ⟨memo, by simp⟩
  | cons start rest ih =>
      intro acc memo
      obtain ⟨m2, hstep⟩ := subsys_search_step_d0 cfg si sj fuel start (acc, memo)
      by_cases hm : start ∈ cfg.mets sj
      · obtain ⟨m3, hrest⟩ := ih (acc ∪ {[start]}) m2
        refine ⟨m3, ?_⟩
        rw [List.foldl_cons, Option.some_bind, hstep, if_pos hm, hrest]
        rw [List.filter_cons_of_pos (by simpa using hm)]
        simp [Finset.union_assoc, Finset.insert_eq]
      · obtain ⟨m3, hrest⟩ := ih acc m2
        refine ⟨m3, ?_⟩
        rw [List.foldl_cons, Option.some_bind, hstep, if_neg hm, hrest]
        rw [List.filter_cons_of_neg (by simpa using hm)]

/-- C4 (amended): at depth 0 no expansion loop runs, so for every ordered
pair `(i, j)` the `(i, j, 0)` path-result set produced by the driver call
equals `{(m,) : m in mets i and m in mets j}`; in particular
`(i, i, 0) = {(m,) : m in mets i}`.  For `i ≠ j` the set is empty exactly
when the two subsystems share no metabolite, not unconditionally.  The
depth-0 frontier used for a start metabolite is `{start}` when the start
belongs to the destination subsystem's metabolite set and empty
otherwise. -/
theorem depth_zero_path_results (cfg : SearchCfg) (subsystem_i subsystem_j : String)
    (fuel : Nat) (memo : Memo) :
    (∃ memo2, breadth_search_subsystems_paths_length_d cfg subsystem_i subsystem_j 0
        (fuel+1) ∅ memo
      = some ((((cfg.mets subsystem_i).filter
          (fun m => decide (m ∈ cfg.mets subsystem_j))).map (fun m => [m])).toFinset, memo2))
    ∧ (∃ memo2, breadth_search_subsystems_paths_length_d cfg subsystem_i subsystem_i 0
        (fuel+1) ∅ memo
      = some (((cfg.mets subsystem_i).map (fun m => [m])).toFinset, memo2))
    ∧ ∀ start, effective_frontier cfg subsystem_i subsystem_j 0 start
        = if start ∈ cfg.mets subsystem_j then [start] else [] := by
  refine ⟨?_, ?_, ?_⟩
  · obtain ⟨m2, hfold⟩ :=
      depth_zero_fold cfg subsystem_i subsystem_j fuel (cfg.mets subsystem_i) ∅ memo
    exact ⟨m2, by rw [breadth_search_subsystems_paths_length_d, hfold, Finset.empty_union]⟩
  · obtain ⟨m2, hfold⟩ :=
      depth_zero_fold cfg subsystem_i subsystem_i fuel (cfg.mets subsystem_i) ∅ memo
    refine ⟨m2, ?_⟩
    rw [breadth_search_subsystems_paths_length_d, hfold, Finset.empty_union]
    rw [List.filter_eq_self.mpr (fun a ha => by simpa using ha)]
  · intro start
    by_cases hm : start ∈ cfg.mets subsystem_j
    · rw [effective_frontier, if_neg (by simp [hm]), if_pos hm]
      rfl
    · rw [effective_frontier, if_pos ⟨rfl, hm⟩, if_neg hm]

/-- A configuration with two distinct subsystems `X` and `Y` whose
metabolite sets overlap (both contain `A`). -/
def cfgC4 : SearchCfg :=
  { adj := fun _ => []
    mets := fun s => if s = "X" ∨ s = "Y" then ["A"] else []
    extracellular := []
    subsystems := ["X", "Y"]
    d := 0
    n := 0 }

/-- Counterexample to C4: for the distinct subsystems `X ≠ Y` that share
the metabolite `A`, the `(X, Y, 0)` path-result set is `{(A,)}`, not the
empty set the claim asserts for every pair of distinct subsystems. -/
theorem depth_zero_distinct_pair_not_empty :
    "X" ≠ "Y"
    ∧ (breadth_search_subsystems_paths_length_d cfgC4 "X" "Y" 0 1 ∅ (fun _ => none)).map
        Prod.fst = some {["A"]}
    ∧ ({["A"]} : Finset NodePath) ≠ ∅ := by
  refine ⟨by decide, by rfl, by decide⟩

/-- Embedding of `RedGEM.is_node_allowed_extracellular` (redgem.py lines
311-323), with the Python `int` arithmetic carried out in `ℤ`. -/
def is_node_allowed_extracellular (mets : String → List String)
    (extracellular : List String) (node : String) (i : ℤ)
    (explored : List String) (subsystem : String) (n : ℤ) : Bool :=
  if node ∈ explored then false
  else if node ∈ extracellular then false
  else if i < n - 1 ∧ node ∈ mets subsystem then false
  else if i = n - 1 ∧ node ∉ mets subsystem then false
  else true

/-- The admission predicate used by the extracellular BFS. -/
def extracellular_allowedAt (cfg : SearchCfg) (subsystem : String) (n : Nat) :
    Nat → List String → String → Bool :=
  fun i explored node =>
    is_node_allowed_extracellular cfg.mets cfg.extracellular node (i : ℤ)
      explored subsystem (n : ℤ)

/-- The state mutated by the extracellular search: the per-subsystem result
container `self._intermediate_extracellular_paths` (a Python list of
per-depth set slots) and the path memo. -/
structure ExtraState where
  paths : String → List (Finset NodePath)
  memo : Memo

/-- The allocation performed by `__init__` (redgem.py lines 57-59 and 79):
for every subsystem a fresh list of exactly `d+1` empty sets. -/
def init_extra_state (cfg : SearchCfg) : ExtraState :=
  { paths := fun _ => List.replicate (cfg.d + 1) ∅
    memo := fun _ => none }

/-- The read-modify-write
`self._intermediate_extracellular_paths[subsystem][n] = ...union(set(paths))`
of redgem.py lines 306-307.  A Python list access at an out-of-range index
raises `IndexError`, modelled as `none`. -/
def store_paths (st : ExtraState) (subsystem : String) (k : Nat)
    (newPaths : List NodePath) : Option ExtraState :=
  match (st.paths subsystem).get? k with
  | none => none
  | some cur =>
      some { st with paths := Function.update st.paths subsystem ((st.paths subsystem).set k (cur ∪ newPaths.toFinset)) }

/-- The `for node in frontier` loop of the extracellular search (redgem.py
lines 304-309), restricted to the path bookkeeping. -/
def process_frontier_extracellular (anc : AncMap) (src : String) (fuel : Nat)
    (subsystem : String) (k : Nat) : List String → ExtraState → Option ExtraState
  | [], st => some st
  | node :: rest, st =>
      match retrieve_all_paths anc src fuel node true st.memo with
      | none => none
      | some (paths, memo2) =>
          match store_paths { st with memo := memo2 } subsystem k paths with
          | none => none
          | some st2 => process_frontier_extracellular anc src fuel subsystem k rest st2

/-- Processing of one extracellular start metabolite by
`breadth_search_extracellular_system_paths`: run the BFS, apply the
`n == 0` frontier correction (lines 301-302), then store every frontier
node's paths at depth slot `k`. -/
def extracellular_search_step (cfg : SearchCfg) (subsystem : String)
    (k fuel : Nat) (start : String) (st : ExtraState) : Option ExtraState :=
  process_frontier_extracellular
    (bfs_run cfg.adj (extracellular_allowedAt cfg subsystem k) k start).anc
    start fuel subsystem k
    (if k = 0 ∧ start ∉ cfg.mets subsystem then []
     else (bfs_run cfg.adj (extracellular_allowedAt cfg subsystem k) k start).frontier)
    st

/-- Embedding of `breadth_search_extracellular_system_paths` (redgem.py
lines 280-309) restricted to the path bookkeeping: iterate over the
extracellular metabolites. -/
def breadth_search_extracellular_system_paths (cfg : SearchCfg)
    (subsystem : String) (k fuel : Nat) (st : ExtraState) : Option ExtraState :=
  cfg.extracellular.foldl
    (fun acc start => acc.bind (extracellular_search_step cfg subsystem k fuel start))
    (some st)

/-- Embedding of `run_extracellular_system` (redgem.py lines 343-346):
`for subsystem in self._subsystem_names: for k in range(self._n + 1)`. -/
def run_extracellular_system (cfg : SearchCfg) (fuel : Nat) (st : ExtraState) :
    Option ExtraState :=
  cfg.subsystems.foldl
    (fun acc subsystem =>
      (List.range (cfg.n + 1)).foldl
        (fun acc2 k =>
          acc2.bind (breadth_search_extracellular_system_paths cfg subsystem k fuel))
        acc)
    (some st)

lemma foldl_bind_none {α β : Type} (f : β → α → Option α) :
    ∀ l : List β, l.foldl (fun a x => a.bind (f x)) none = none := by
  intro l
  induction l with
  | nil => rfl
  | cons x xs ih => simpa using ih

lemma foldl_bind_preserve {α β : Type} (f : β → α → Option α) (P : α → Prop)
    (hf : ∀ x a a2, f x a = some a2 → P a → P a2) :
    ∀ (l : List β) (a a2 : α),
      l.foldl (fun acc x => acc.bind (f x)) (some a) = some a2 → P a → P a2 := by
  intro l
  induction l with
  | nil =>
      intro a a2 h hP
      simp only [List.foldl_nil, Option.some.injEq] at h
      exact h ▸ hP
  | cons x xs ih =>
      intro a a2 h hP
      rw [List.foldl_cons, Option.some_bind] at h
      cases hx : f x a with
      | none =>
          rw [hx, foldl_bind_none] at h
          exact Option.noConfusion h
      | some a1 =>
          rw [hx] at h
          exact ih a1 a2 h (hf x a a1 hx hP)

lemma foldl_bind_kill {α β : Type} (f : β → α → Option α) (P : α → Prop)
    (hpres : ∀ x a a2, f x a = some a2 → P a → P a2)
    (x : β) (hkill : ∀ a, P a → f x a = none) :
    ∀ (l : List β), x ∈ l → ∀ a, P a →
      l.foldl (fun acc y => acc.bind (f y)) (some a) = none := by
  intro l
  induction l with
  | nil =>
      intro hx
      exact absurd hx (List.not_mem_nil x)
  | cons y ys ih =>
      intro hx a hP
      rw [List.foldl_cons, Option.some_bind]
      rcases List.mem_cons.mp hx with rfl | hmem
      · rw [hkill a hP]
        exact foldl_bind_none f ys
      · cases hy : f y a with
        | none => exact foldl_bind_none f ys
        | some a1 => exact ih hmem a1 (hpres y a a1 hy hP)

/-- Invariant of the extracellular run: every per-subsystem result
container keeps its allocated `d+1` slots. -/
def LenInv (cfg : SearchCfg) (st : ExtraState) : Prop :=
  ∀ s, (st.paths s).length = cfg.d + 1

lemma store_paths_len (st : ExtraState) (subsystem : String) (k : Nat)
    (ps : List NodePath) (st2 : ExtraState)
    (h : store_paths st subsystem k ps = some st2) :
    ∀ s, (st2.paths s).length = (st.paths s).length := by
  rw [store_paths] at h
  cases hg : (st.paths subsystem).get? k with
  | none =>
      simp only [hg] at h
      exact Option.noConfusion h
  | some cur =>
      simp only [hg, Option.some.injEq] at h
      intro s
      rw [← h]
      by_cases hs : s = subsystem
      · subst hs
        simp [Function.update_same, List.length_set]
      · simp [Function.update_noteq hs]

lemma process_frontier_extracellular_len (anc : AncMap) (src : String) (fuel : Nat)
    (subsystem : String) (k : Nat) :
    ∀ (l : List String) (st st2 : ExtraState),
      process_frontier_extracellular anc src fuel subsystem k l st = some st2 →
      ∀ s, (st2.paths s).length = (st.paths s).length := by
  intro l
  induction l with
  | nil =>
      intro st st2 h s
      simp only [process_frontier_extracellular, Option.some.injEq] at h
      rw [← h]
  | cons node rest ih =>
      intro st st2 h s
      rw [process_frontier_extracellular] at h
      cases hr : retrieve_all_paths anc src fuel node true st.memo with
      | none =>
          simp only [hr] at h
          exact Option.noConfusion h
      | some pm =>
          obtain ⟨paths, memo2⟩ := pm
          simp only [hr] at h
          cases hs : store_paths { st with memo := memo2 } subsystem k paths with
          | none =>
              simp only [hs] at h
              exact Option.noConfusion h
          | some st1 =>
              simp only [hs] at h
              rw [ih st1 st2 h s, store_paths_len _ _ _ _ _ hs s]

lemma extracellular_search_step_len (cfg : SearchCfg) (subsystem : String)
    (k fuel : Nat) (start : String) (st st2 : ExtraState)
    (h : extracellular_search_step cfg subsystem k fuel start st = some st2) :
    ∀ s, (st2.paths s).length = (st.paths s).length := by
  rw [extracellular_search_step] at h
  exact process_frontier_extracellular_len _ _ _ _ _ _ st st2 h

lemma breadth_search_extracellular_len (cfg : SearchCfg) (subsystem : String)
    (k fuel : Nat) (st st2 : ExtraState)
    (h : breadth_search_extracellular_system_paths cfg subsystem k fuel st = some st2)
    (hInv : LenInv cfg st) : LenInv cfg st2 := by
  rw [breadth_search_extracellular_system_paths] at h
  refine foldl_bind_preserve _ (LenInv cfg) ?_ cfg.extracellular st st2 h hInv
  intro start a a2 ha hP s
  rw [extracellular_search_step_len cfg subsystem k fuel start a a2 ha s, hP s]

lemma extracellular_search_step_overflow (cfg : SearchCfg) (subsystem : String)
    (k fuel : Nat) (start : String) (hk : cfg.d < k)
    (hfront : (bfs_run cfg.adj (extracellular_allowedAt cfg subsystem k) k start).frontier
      ≠ []) (st : ExtraState) (hInv : LenInv cfg st) :
    extracellular_search_step cfg subsystem k fuel start st = none := by
  rw [extracellular_search_step]
  rw [if_neg (by rintro ⟨rfl, _⟩; omega)]
  cases hfr : (bfs_run cfg.adj (extracellular_allowedAt cfg subsystem k) k start).frontier with
  | nil => exact absurd hfr hfront
  | cons node rest =>
      rw [process_frontier_extracellular]
      cases hr : retrieve_all_paths
          (bfs_run cfg.adj (extracellular_allowedAt cfg subsystem k) k start).anc
          start fuel node true st.memo with
      | none => simp only [hr]
      | some pm =>
          obtain ⟨paths, memo2⟩ := pm
          simp only [hr]
          have hstore : store_paths { st with memo := memo2 } subsystem k paths = none := by
            rw [store_paths]
            have hg : (({ st with memo := memo2 } : ExtraState).paths subsystem).get? k
                = none := by
              refine List.get?_eq_none.mpr ?_
              show (st.paths subsystem).length ≤ k
              rw [hInv subsystem]
              omega
            simp only [hg]
          simp only [hstore]

lemma breadth_search_extracellular_overflow (cfg : SearchCfg) (subsystem : String)
    (k fuel : Nat) (start : String) (hk : cfg.d < k)
    (hstart : start ∈ cfg.extracellular)
    (hfront : (bfs_run cfg.adj (extracellular_allowedAt cfg subsystem k) k start).frontier
      ≠ []) :
    ∀ st, LenInv cfg st →
      breadth_search_extracellular_system_paths cfg subsystem k fuel st = none := by
  intro st hInv
  rw [breadth_search_extracellular_system_paths]
  refine foldl_bind_kill _ (LenInv cfg) ?_ start ?_ cfg.extracellular hstart st hInv
  · intro x a a2 ha hP s
    rw [extracellular_search_step_len cfg subsystem k fuel x a a2 ha s, hP s]
  · intro a hP
    exact extracellular_search_step_overflow cfg subsystem k fuel start hk hfront a hP

lemma outer_foldl_none (cfg : SearchCfg) (fuel : Nat) :
    ∀ (l : List String),
      l.foldl
        (fun acc subsystem =>
          (List.range (cfg.n + 1)).foldl
            (fun a2 k =>
              a2.bind (breadth_search_extracellular_system_paths cfg subsystem k fuel))
            acc)
        none = none := by
  intro l
  induction l with
  | nil => rfl
  | cons y ys ih =>
      rw [List.foldl_cons,
        foldl_bind_none (fun k => breadth_search_extracellular_system_paths cfg y k fuel)]
      exact ih

lemma run_extracellular_overflow_aux (cfg : SearchCfg) (fuel : Nat)
    (badSub : String) (badK : Nat) (start : String)
    (hk : cfg.d < badK) (hkn : badK ≤ cfg.n)
    (hstart : start ∈ cfg.extracellular)
    (hfront : (bfs_run cfg.adj (extracellular_allowedAt cfg badSub badK) badK start).frontier
      ≠ []) :
    ∀ (l : List String), badSub ∈ l → ∀ st, LenInv cfg st →
      l.foldl
        (fun acc subsystem =>
          (List.range (cfg.n + 1)).foldl
            (fun a2 k =>
              a2.bind (breadth_search_extracellular_system_paths cfg subsystem k fuel))
            acc)
        (some st) = none := by
  intro l
  induction l with
  | nil =>
      intro hmem
      exact absurd hmem (List.not_mem_nil badSub)
  | cons y ys ih =>
      intro hmem st hInv
      rw [List.foldl_cons]
      rcases List.mem_cons.mp hmem with rfl | hmem2
      · have hinner : (List.range (cfg.n + 1)).foldl
            (fun a2 k =>
              a2.bind (breadth_search_extracellular_system_paths cfg badSub k fuel))
            (some st) = none := by
          refine foldl_bind_kill _ (LenInv cfg) ?_ badK ?_ (List.range (cfg.n + 1))
            (List.mem_range.mpr (by omega)) st hInv
          · intro k a a2 ha hP
            exact breadth_search_extracellular_len cfg badSub k fuel a a2 ha hP
          · intro a hP
            exact breadth_search_extracellular_overflow cfg badSub badK fuel start hk
              hstart hfront a hP
        rw [hinner]
        exact outer_foldl_none cfg fuel ys
      · cases hy : (List.range (cfg.n + 1)).foldl
            (fun a2 k =>
              a2.bind (breadth_search_extracellular_system_paths cfg y k fuel))
            (some st) with
        | none => exact outer_foldl_none cfg fuel ys
        | some st1 =>
            refine ih hmem2 st1 ?_
            refine foldl_bind_preserve _ (LenInv cfg) ?_ (List.range (cfg.n + 1)) st st1 hy hInv
            intro k a a2 ha hP
            exact breadth_search_extracellular_len cfg y k fuel a a2 ha hP

/-- C10: the extracellular result containers are allocated with exactly
`d+1` slots (indices `0..d`), while `run_extracellular_system` stores at
index `k` for every `k` in `0..n`; hence the implicit precondition
`n ≤ d`.  For any configuration with `n > d` in which some extracellular
BFS reaches a non-empty frontier at a depth `k` with `d < k ≤ n`, the run
fails with an out-of-range index error (modelled as `none`) instead of
recording those results. -/
theorem extracellular_depth_overflow (cfg : SearchCfg) (fuel : Nat)
    (subsystem : String) (k : Nat) (start : String)
    (hnd : cfg.d < cfg.n) (hsub : subsystem ∈ cfg.subsystems)
    (hkd : cfg.d < k) (hkn : k ≤ cfg.n) (hstart : start ∈ cfg.extracellular)
    (hfront : (bfs_run cfg.adj (extracellular_allowedAt cfg subsystem k) k start).frontier
      ≠ []) :
    (∀ s, ((init_extra_state cfg).paths s).length = cfg.d + 1)
    ∧ run_extracellular_system cfg fuel (init_extra_state cfg) = none := by
  constructor
  · intro s
    simp [init_extra_state]
  · rw [run_extracellular_system]
    exact run_extracellular_overflow_aux cfg fuel subsystem k start hkd hkn hstart hfront
      cfg.subsystems hsub (init_extra_state cfg) (fun s => by simp [init_extra_state])

/-- A configuration with `n = 1 > d = 0` and an extracellular path
`E → A` of length `1` into subsystem `S`. -/
def cfgC10 : SearchCfg :=
  { adj := fun s => if s = "E" then ["A"] else []
    mets := fun s => if s = "S" then ["A"] else []
    extracellular := ["E"]
    subsystems := ["S"]
    d := 0
    n := 1 }

/-- Witness for C10: on the concrete configuration with `n = 1 > d = 0`
and the extracellular path `E → A`, the containers have one slot and the
extracellular run fails with the out-of-range error. -/
theorem extracellular_depth_overflow_witness :
    (∀ s, ((init_extra_state cfgC10).paths s).length = cfgC10.d + 1)
    ∧ run_extracellular_system cfgC10 5 (init_extra_state cfgC10) = none :=
  extracellular_depth_overflow cfgC10 5 "S" 1 "E" (by decide) (by decide) (by decide)
    (by decide) (by decide) (by decide)

/-- The `for k in range(d+1)` scan with `break` of
`find_min_distance_between_subsystems` (redgem.py lines 270-274): the
first `k` whose path-result set is truthy (non-empty), else the `-1`
sentinel left from the initialization of `_min_distance_sub_to_sub`
(lines 63-68, 77). -/
def min_distance_scan (paths : Nat → Finset NodePath) : List Nat → ℤ
  | [] => -1
  | k :: rest => if paths k ≠ ∅ then (k : ℤ) else min_distance_scan paths rest

/-- Embedding of `find_min_distance_between_subsystems` (redgem.py lines
267-278) for one ordered pair, reading `self._intermediate_paths`. -/
def find_min_distance_between_subsystems (d : Nat)
    (intermediate_paths : String → String → Nat → Finset NodePath)
    (subsystem_i subsystem_j : String) : ℤ :=
  min_distance_scan (intermediate_paths subsystem_i subsystem_j) (List.range (d + 1))

lemma min_distance_scan_all_empty (paths : Nat → Finset NodePath) :
    ∀ (l : List Nat), (∀ k ∈ l, paths k = ∅) → min_distance_scan paths l = -1 := by
  intro l
  induction l with
  | nil => intro _; rfl
  | cons k rest ih =>
      intro hall
      rw [min_distance_scan, if_neg (by simpa using hall k (List.mem_cons_self k rest))]
      exact ih (fun k2 hk2 => hall k2 (List.mem_cons_of_mem k hk2))

lemma min_distance_scan_append (paths : Nat → Finset NodePath) :
    ∀ (l1 l2 : List Nat), (∀ k ∈ l1, paths k = ∅) →
      min_distance_scan paths (l1 ++ l2) = min_distance_scan paths l2 := by
  intro l1
  induction l1 with
  | nil => intro l2 _; rfl
  | cons k rest ih =>
      intro l2 hall
      rw [List.cons_append, min_distance_scan,
        if_neg (by simpa using hall k (List.mem_cons_self k rest))]
      exact ih l2 (fun k2 hk2 => hall k2 (List.mem_cons_of_mem k hk2))

lemma min_distance_scan_append_hit (paths : Nat → Finset NodePath) :
    ∀ (l1 l2 : List Nat), (∃ k ∈ l1, paths k ≠ ∅) →
      min_distance_scan paths (l1 ++ l2) = min_distance_scan paths l1 := by
  intro l1
  induction l1 with
  | nil =>
      rintro l2 ⟨k, hk, _⟩
      exact absurd hk (List.not_mem_nil k)
  | cons k rest ih =>
      rintro l2 ⟨k2, hk2, hne2⟩
      by_cases hk : paths k ≠ ∅
      · rw [List.cons_append, min_distance_scan, if_pos hk, min_distance_scan, if_pos hk]
      · rw [List.cons_append, min_distance_scan, if_neg hk, min_distance_scan, if_neg hk]
        refine ih l2 ⟨k2, ?_, hne2⟩
        rcases List.mem_cons.mp hk2 with rfl | hmem
        · exact absurd hne2 hk
        · exact hmem

/-- C8: the computed min-distance for a pair `(i, j)` is the smallest
`k` in `[0, d]` whose `(i, j, k)` path-result set is non-empty, and when
every depth up to `d` has an empty path-result set the `-1` initialization
sentinel is left in place (the pair stays undefined). -/
theorem find_min_distance_spec (d : Nat)
    (intermediate_paths : String → String → Nat → Finset NodePath)
    (subsystem_i subsystem_j : String) :
    ((∃ k, k ≤ d ∧ intermediate_paths subsystem_i subsystem_j k ≠ ∅) →
      ∃ k0 : Nat, find_min_distance_between_subsystems d intermediate_paths
            subsystem_i subsystem_j = (k0 : ℤ)
        ∧ k0 ≤ d ∧ intermediate_paths subsystem_i subsystem_j k0 ≠ ∅
        ∧ ∀ k2, k2 < k0 → intermediate_paths subsystem_i subsystem_j k2 = ∅)
    ∧ ((∀ k, k ≤ d → intermediate_paths subsystem_i subsystem_j k = ∅) →
      find_min_distance_between_subsystems d intermediate_paths
        subsystem_i subsystem_j = -1) := by
  constructor
  · set f := intermediate_paths subsystem_i subsystem_j with hf
    have main : ∀ (dd : Nat), (∃ k, k ≤ dd ∧ f k ≠ ∅) →
        ∃ k0 : Nat, min_distance_scan f (List.range (dd + 1)) = (k0 : ℤ)
          ∧ k0 ≤ dd ∧ f k0 ≠ ∅ ∧ ∀ k2, k2 < k0 → f k2 = ∅ := by
      intro dd
      induction dd with
      | zero =>
          rintro ⟨k, hk, hne⟩
          obtain rfl : k = 0 := Nat.le_zero.mp hk
          refine ⟨0, ?_, le_refl 0, hne, fun k2 hk2 => absurd hk2 (Nat.not_lt_zero k2)⟩
          show min_distance_scan f [0] = ((0 : Nat) : ℤ)
          rw [min_distance_scan, if_pos hne]
      | succ dd ih =>
          rintro ⟨k, hk, hne⟩
          by_cases hlow : ∃ k2, k2 ≤ dd ∧ f k2 ≠ ∅
          · obtain ⟨k0, hscan, hk0, hne0, hmin⟩ := ih hlow
            refine ⟨k0, ?_, Nat.le_succ_of_le hk0, hne0, hmin⟩
            rw [List.range_succ, min_distance_scan_append_hit f _ _ ?_, hscan]
            obtain ⟨k2, hk2, hne2⟩ := hlow
            exact ⟨k2, List.mem_range.mpr (Nat.lt_succ_of_le hk2), hne2⟩
          · push_neg at hlow
            have hktop : k = dd + 1 := by
              rcases Nat.lt_succ_iff_lt_or_eq.mp (Nat.lt_succ_of_le hk) with hlt | rfl
              · exact absurd (hlow k (Nat.lt_succ_iff.mp hlt)) (by simpa using hne)
              · rfl
            subst hktop
            refine ⟨dd + 1, ?_, le_refl (dd + 1), hne,
              fun k2 hk2 => hlow k2 (Nat.lt_succ_iff.mp hk2)⟩
            rw [List.range_succ,
              min_distance_scan_append f (List.range (dd + 1)) [dd + 1]
                (fun k2 hk2 => hlow k2 (Nat.lt_succ_iff.mp (List.mem_range.mp hk2)))]
            rw [min_distance_scan, if_pos hne]
    exact main d
  · intro hall
    exact min_distance_scan_all_empty _ (List.range (d + 1))
      (fun k hk => hall k (Nat.lt_succ_iff.mp (List.mem_range.mp hk)))

/-- A concrete path-result table whose `(P, Q, k)` sets are non-empty
exactly for `k = 1` and `k = 2`. -/
def pathsC8 : String → String → Nat → Finset NodePath :=
  fun i j k => if i = "P" ∧ j = "Q" ∧ (k = 1 ∨ k = 2) then {["a", "b"]} else ∅

/-- Witness for C8: on the concrete table the scan up to `d = 2` returns
the smallest non-empty depth. -/
theorem find_min_distance_spec_witness :
    ∃ k0 : Nat, find_min_distance_between_subsystems 2 pathsC8 "P" "Q" = (k0 : ℤ)
      ∧ k0 ≤ 2 ∧ pathsC8 "P" "Q" k0 ≠ ∅
      ∧ ∀ k2, k2 < k0 → pathsC8 "P" "Q" k2 = ∅ :=
  (find_min_distance_spec 2 pathsC8 "P" "Q").1 ⟨1, by decide, by decide⟩

/-- The reaction-side inputs read by `extract_sub_network`: the original
network's reaction identifiers, `self._subsystem_reactions_id`,
`self._intermediate_reactions_id`,
`self._intermediate_extracellular_reactions_id`, `self._subsystem_names`
and the degrees `d` and `n`. -/
structure PrunerIn where
  allRxns : Finset String
  subRxns : String → Finset String
  interRxns : String → String → Nat → Finset String
  extraRxns : String → Nat → Finset String
  subsystems : List String
  d : Nat
  n : Nat

/-- Embedding of the `to_remove_reactions` computation of
`extract_sub_network` (redgem.py lines 348-375): start from all reaction
identifiers of the original network and subtract, in program order, every
subsystem's reaction-id set, every `(i, j, k)` intermediate-reaction set
for `k` in `0..d`, and every `(subsystem, k)` extracellular
intermediate-reaction set — the extracellular loop at line 373 iterates
`range(self._d + 1)`, not `range(self._n + 1)`. -/
def to_remove_reactions (P : PrunerIn) : Finset String :=
  let r1 := P.subsystems.foldl (fun acc name => acc \ P.subRxns name) P.allRxns
  let r2 := P.subsystems.foldl (fun acc i =>
    P.subsystems.foldl (fun acc2 j =>
      (List.range (P.d + 1)).foldl (fun acc3 k => acc3 \ P.interRxns i j k) acc2) acc) r1
  P.subsystems.foldl (fun acc i =>
    (List.range (P.d + 1)).foldl (fun acc2 k => acc2 \ P.extraRxns i k) acc) r2

/-- The retained reaction set as the specification states it: every core
subsystem's reaction-identifier set, every `(i, j, k)`
intermediate-reaction set for depths `0..d`, and every `(subsystem, k)`
extracellular intermediate-reaction set for depths `0..n` (the depths the
driver actually writes). -/
def retained_reactions (P : PrunerIn) : Finset String :=
  P.subsystems.toFinset.biUnion P.subRxns
    ∪ P.subsystems.toFinset.biUnion (fun i =>
        P.subsystems.toFinset.biUnion (fun j =>
          (List.range (P.d + 1)).toFinset.biUnion (P.interRxns i j)))
    ∪ P.subsystems.toFinset.biUnion (fun i =>
        (List.range (P.n + 1)).toFinset.biUnion (P.extraRxns i))

lemma foldl_sdiff_biUnion {β : Type} [DecidableEq β] (f : β → Finset String) :
    ∀ (l : List β) (a : Finset String),
      l.foldl (fun acc x => acc \ f x) a = a \ l.toFinset.biUnion f := by
  intro l
  induction l with
  | nil =>
      intro a
      simp
  | cons x xs ih =>
      intro a
      rw [List.foldl_cons, ih (a \ f x), List.toFinset_cons, Finset.biUnion_insert,
        sdiff_sdiff_left]
      rfl

lemma to_remove_reactions_eq (P : PrunerIn) :
    to_remove_reactions P
      = P.allRxns \ (P.subsystems.toFinset.biUnion P.subRxns
          ∪ P.subsystems.toFinset.biUnion (fun i =>
              P.subsystems.toFinset.biUnion (fun j =>
                (List.range (P.d + 1)).toFinset.biUnion (P.interRxns i j)))
          ∪ P.subsystems.toFinset.biUnion (fun i =>
              (List.range (P.d + 1)).toFinset.biUnion (P.extraRxns i))) := by
  have hInner : ∀ (acc : Finset String) (i : String),
      P.subsystems.foldl (fun acc2 j =>
        (List.range (P.d + 1)).foldl (fun acc3 k => acc3 \ P.interRxns i j k) acc2) acc
      = acc \ P.subsystems.toFinset.biUnion (fun j =>
          (List.range (P.d + 1)).toFinset.biUnion (P.interRxns i j)) := by
    intro acc i
    rw [List.foldl_ext _
      (fun acc2 j => acc2 \ (List.range (P.d + 1)).toFinset.biUnion (P.interRxns i j))
      acc (fun acc2 j _ => foldl_sdiff_biUnion (P.interRxns i j) (List.range (P.d + 1)) acc2)]
    exact foldl_sdiff_biUnion _ P.subsystems acc
  have hMid : ∀ (a : Finset String),
      P.subsystems.foldl (fun acc i =>
        P.subsystems.foldl (fun acc2 j =>
          (List.range (P.d + 1)).foldl (fun acc3 k => acc3 \ P.interRxns i j k) acc2) acc) a
      = a \ P.subsystems.toFinset.biUnion (fun i =>
          P.subsystems.toFinset.biUnion (fun j =>
            (List.range (P.d + 1)).toFinset.biUnion (P.interRxns i j))) := by
    intro a
    rw [List.foldl_ext _
      (fun acc i => acc \ P.subsystems.toFinset.biUnion (fun j =>
        (List.range (P.d + 1)).toFinset.biUnion (P.interRxns i j)))
      a (fun acc i _ => hInner acc i)]
    exact foldl_sdiff_biUnion _ P.subsystems a
  have hExtra : ∀ (a : Finset String),
      P.subsystems.foldl (fun acc i =>
        (List.range (P.d + 1)).foldl (fun acc2 k => acc2 \ P.extraRxns i k) acc) a
      = a \ P.subsystems.toFinset.biUnion (fun i =>
          (List.range (P.d + 1)).toFinset.biUnion (P.extraRxns i)) := by
    intro a
    rw [List.foldl_ext _
      (fun acc i => acc \ (List.range (P.d + 1)).toFinset.biUnion (P.extraRxns i))
      a (fun acc i _ => foldl_sdiff_biUnion (P.extraRxns i) (List.range (P.d + 1)) acc)]
    exact foldl_sdiff_biUnion _ P.subsystems a
  show (P.subsystems.foldl (fun acc i =>
      (List.range (P.d + 1)).foldl (fun acc2 k => acc2 \ P.extraRxns i k) acc)
    (P.subsystems.foldl (fun acc i =>
      P.subsystems.foldl (fun acc2 j =>
        (List.range (P.d + 1)).foldl (fun acc3 k => acc3 \ P.interRxns i j k) acc2) acc)
      (P.subsystems.foldl (fun acc name => acc \ P.subRxns name) P.allRxns))) = _
  rw [hExtra, hMid, foldl_sdiff_biUnion P.subRxns P.subsystems P.allRxns,
    sdiff_sdiff_left, sdiff_sdiff_left]
  simp [Finset.sup_eq_union, Finset.union_assoc]

lemma to_remove_reactions_eq_spec (P : PrunerIn)
    (hex : ∀ s k, P.n < k ∨ P.d < k → P.extraRxns s k = ∅) :
    to_remove_reactions P = P.allRxns \ retained_reactions P := by
  rw [to_remove_reactions_eq P, retained_reactions]
  have hS3 : P.subsystems.toFinset.biUnion (fun i =>
        (List.range (P.d + 1)).toFinset.biUnion (P.extraRxns i))
      = P.subsystems.toFinset.biUnion (fun i =>
        (List.range (P.n + 1)).toFinset.biUnion (P.extraRxns i)) := by
    refine Finset.biUnion_congr rfl ?_
    intro i _
    ext x
    simp only [Finset.mem_biUnion, List.mem_toFinset, List.mem_range]
    constructor
    · rintro ⟨k, hk, hx⟩
      refine ⟨k, ?_, hx⟩
      by_contra hnk
      push_neg at hnk
      rw [hex i k (Or.inl (by omega))] at hx
      exact absurd hx (Finset.not_mem_empty x)
    · rintro ⟨k, hk, hx⟩
      refine ⟨k, ?_, hx⟩
      by_contra hnk
      push_neg at hnk
      rw [hex i k (Or.inr (by omega))] at hx
      exact absurd hx (Finset.not_mem_empty x)
  rw [hS3]

/-- C3: assuming the driver has run to completion — so every extracellular
intermediate-reaction set at a depth beyond `n` (never written) or beyond
`d` (out of the allocated container) is empty — the Pruner's
to-remove-reactions set equals the original network's reaction identifiers
minus the union of every subsystem's reaction set, every `(i, j, k)`
intermediate-reaction set for `k` in `0..d`, and every `(subsystem, k)`
extracellular intermediate-reaction set for `k` in `0..n`. -/
theorem extract_sub_network_to_remove (P : PrunerIn)
    (hex : ∀ s k, P.n < k ∨ P.d < k → P.extraRxns s k = ∅) :
    to_remove_reactions P = P.allRxns \ retained_reactions P :=
  to_remove_reactions_eq_spec P hex

/-- A concrete pruner input: four reactions, one subsystem keeping `r1`,
an intermediate set keeping `r2`, an extracellular set keeping `r3`. -/
def prC3 : PrunerIn :=
  { allRxns := {"r1", "r2", "r3", "r4"}
    subRxns := fun s => if s = "S" then {"r1"} else ∅
    interRxns := fun i j k => if i = "S" ∧ j = "S" ∧ k = 1 then {"r2"} else ∅
    extraRxns := fun s k => if s = "S" ∧ k = 0 then {"r3"} else ∅
    subsystems := ["S"]
    d := 1
    n := 0 }

lemma prC3_hex : ∀ s k, prC3.n < k ∨ prC3.d < k → prC3.extraRxns s k = ∅ := by
  intro s k hk
  show (if s = "S" ∧ k = 0 then ({"r3"} : Finset String) else ∅) = ∅
  rw [if_neg]
  rintro ⟨-, rfl⟩
  rcases hk with h | h <;> omega

/-- Witness for C3: on the concrete input the subtraction chain leaves
exactly the unretained reaction `r4`. -/
theorem extract_sub_network_to_remove_witness :
    to_remove_reactions prC3 = prC3.allRxns \ retained_reactions prC3
    ∧ to_remove_reactions prC3 = {"r4"} :=
  ⟨extract_sub_network_to_remove prC3 prC3_hex, by decide⟩

/-- C7: the to-remove-reactions set and the retained set (core subsystem
reactions, `(i, j, k)` intermediate reactions, extracellular intermediate
reactions) partition the original reaction-identifier set: their union is
the full set (the retained identifiers all come from the original
network) and their intersection is empty. -/
theorem to_remove_retained_partition (P : PrunerIn)
    (hex : ∀ s k, P.n < k ∨ P.d < k → P.extraRxns s k = ∅)
    (hsub : retained_reactions P ⊆ P.allRxns) :
    to_remove_reactions P ∪ retained_reactions P = P.allRxns
    ∧ to_remove_reactions P ∩ retained_reactions P = ∅ := by
  constructor
  · rw [to_remove_reactions_eq_spec P hex]
    exact Finset.sdiff_union_of_subset hsub
  · rw [to_remove_reactions_eq_spec P hex]
    exact Finset.disjoint_iff_inter_eq_empty.mp Finset.sdiff_disjoint

/-- Witness for C7: the partition property holds on the concrete pruner
input. -/
theorem to_remove_retained_partition_witness :
    to_remove_reactions prC3 ∪ retained_reactions prC3 = prC3.allRxns
    ∧ to_remove_reactions prC3 ∩ retained_reactions prC3 = ∅ :=
  to_remove_retained_partition prC3 prC3_hex (by decide)

/-- A reaction as the graph builder reads it (redgem.py lines 159-179):
its identifier and its metabolite-to-stoichiometric-coefficient mapping,
in iteration order. -/
structure RxnM where
  id : String
  mets : List (String × ℤ)
deriving DecidableEq

/-- The three ignorable-species lists of the builder
(`self._cofactor_pairs`, `self._small_metabolites`, `self._inorganics`). -/
structure IgnoreCfg where
  cofactor_pairs : List String
  small_metabolites : List String
  inorganics : List String
deriving DecidableEq

/-- The skip test of redgem.py lines 163-166. -/
def ignored (cfg : IgnoreCfg) (m : String) : Bool :=
  decide (m ∈ cfg.cofactor_pairs) || decide (m ∈ cfg.small_metabolites)
    || decide (m ∈ cfg.inorganics)

/-- The retained (non-ignorable) metabolite-coefficient pairs of one
reaction. -/
def retained_mets (cfg : IgnoreCfg) (r : RxnM) : List (String × ℤ) :=
  r.mets.filter (fun p => !(ignored cfg p.1))

/-- Modelled from the spec: the underlying reaction representation is
outside this repository; per the specification's sign convention its
`reactants` are the retained metabolites with negative stoichiometric
coefficient. -/
def reactants (cfg : IgnoreCfg) (r : RxnM) : List String :=
  ((retained_mets cfg r).filter (fun p => p.2 < 0)).map Prod.fst

/-- Modelled from the spec: the retained metabolites with positive
stoichiometric coefficient. -/
def products (cfg : IgnoreCfg) (r : RxnM) : List String :=
  ((retained_mets cfg r).filter (fun p => 0 < p.2)).map Prod.fst

/-- The directed graph `self._graph`: its node set and, for every ordered
node pair, the `rxn_id` attribute of the edge when the edge exists. -/
structure GraphM where
  nodes : Finset String
  edge : String → String → Option String

/-- `self._graph.add_edge(reactant.id, product.id, rxn_id=rxn.id, weight=1)`
(redgem.py line 189): inserts both endpoints as nodes and overwrites the
attributes of an already existing edge. -/
def add_edge (g : GraphM) (a b rid : String) : GraphM :=
  { nodes := insert a (insert b g.nodes)
    edge := fun x y => if x = a ∧ y = b then some rid else g.edge x y }

/-- The two inner loops of redgem.py lines 187-189: one edge from every
retained reactant to every retained product of a reaction. -/
def add_rxn_edges (cfg : IgnoreCfg) (g : GraphM) (r : RxnM) : GraphM :=
  (reactants cfg r).foldl
    (fun g2 a => (products cfg r).foldl (fun g3 b => add_edge g3 a b r.id) g2) g

/-- The `kept_metabolites` accumulation of redgem.py lines 158-172: the
identifiers of every retained metabolite of any reaction. -/
def kept_met_ids (cfg : IgnoreCfg) (rxns : List RxnM) : Finset String :=
  rxns.foldl (fun acc r => acc ∪ ((retained_mets cfg r).map Prod.fst).toFinset) ∅

/-- Embedding of `create_new_stoichiometric_matrix` (redgem.py lines
151-190) restricted to the built graph: a node for every kept metabolite
(lines 184-185), then the reactant-to-product edges of every kept reaction
in list order (lines 186-189). -/
def create_new_stoichiometric_matrix (cfg : IgnoreCfg) (rxns : List RxnM) : GraphM :=
  rxns.foldl (add_rxn_edges cfg) { nodes := kept_met_ids cfg rxns, edge := fun _ _ => none }

/-- Whether reaction `r` induces the directed edge `(a, b)`. -/
def induces_edge (cfg : IgnoreCfg) (r : RxnM) (a b : String) : Bool :=
  decide (a ∈ reactants cfg r) && decide (b ∈ products cfg r)

lemma prod_fold_edge (a0 rid : String) :
    ∀ (l : List String) (g : GraphM) (x y : String),
      (l.foldl (fun g3 b => add_edge g3 a0 b rid) g).edge x y
        = if x = a0 ∧ y ∈ l then some rid else g.edge x y := by
  intro l
  induction l with
  | nil =>
      intro g x y
      simp
  | cons b rest ih =>
      intro g x y
      rw [List.foldl_cons, ih]
      by_cases hx : x = a0 <;> by_cases hyb : y = b <;> by_cases hyr : y ∈ rest <;>
        simp [add_edge, hx, hyb, hyr, List.mem_cons]

lemma react_fold_edge (cfg : IgnoreCfg) (r : RxnM) :
    ∀ (l : List String) (g : GraphM) (x y : String),
      ((l.foldl
          (fun g2 a => (products cfg r).foldl (fun g3 b => add_edge g3 a b r.id) g2)
          g).edge x y)
        = if x ∈ l ∧ y ∈ products cfg r then some r.id else g.edge x y := by
  intro l
  induction l with
  | nil =>
      intro g x y
      simp
  | cons a rest ih =>
      intro g x y
      rw [List.foldl_cons, ih, prod_fold_edge]
      by_cases hxa : x = a <;> by_cases hxr : x ∈ rest <;> by_cases hy : y ∈ products cfg r <;>
        simp [hxa, hxr, hy, List.mem_cons]

lemma add_rxn_edges_edge (cfg : IgnoreCfg) (g : GraphM) (r : RxnM) (x y : String) :
    (add_rxn_edges cfg g r).edge x y
      = if induces_edge cfg r x y then some r.id else g.edge x y := by
  rw [add_rxn_edges, react_fold_edge]
  by_cases hx : x ∈ reactants cfg r <;> by_cases hy : y ∈ products cfg r <;>
    simp [induces_edge, hx, hy]

lemma find?_append_elim {α : Type} (p : α → Bool) :
    ∀ (l1 l2 : List α), (l1 ++ l2).find? p = (l1.find? p).elim (l2.find? p) some := by
  intro l1
  induction l1 with
  | nil => intro l2; rfl
  | cons x xs ih =>
      intro l2
      rw [List.cons_append]
      by_cases hx : p x
      · rw [List.find?_cons_of_pos _ hx, List.find?_cons_of_pos _ hx]
        rfl
      · rw [List.find?_cons_of_neg _ (by simpa using hx),
          List.find?_cons_of_neg _ (by simpa using hx)]
        exact ih l2

lemma build_edge (cfg : IgnoreCfg) :
    ∀ (rxns : List RxnM) (g : GraphM) (a b : String),
      (rxns.foldl (add_rxn_edges cfg) g).edge a b
        = (rxns.reverse.find? (fun r => induces_edge cfg r a b)).elim (g.edge a b)
            (fun r => some r.id) := by
  intro rxns
  induction rxns with
  | nil =>
      intro g a b
      rfl
  | cons r rest ih =>
      intro g a b
      rw [List.foldl_cons, ih, List.reverse_cons, find?_append_elim]
      cases hf : rest.reverse.find? (fun r2 => induces_edge cfg r2 a b) with
      | some r2 => rfl
      | none =>
          show (add_rxn_edges cfg g r).edge a b
            = (([r].find? (fun r2 => induces_edge cfg r2 a b)).elim (g.edge a b)
                fun r2 => some r2.id)
          rw [add_rxn_edges_edge]
          by_cases hi : induces_edge cfg r a b
          · rw [if_pos hi]
            simp [List.find?, hi]
          · rw [if_neg hi]
            have hi2 : induces_edge cfg r a b = false := by simpa using hi
            simp [List.find?, hi2]

lemma add_edge_nodes_mono (g : GraphM) (a b rid : String) :
    g.nodes ⊆ (add_edge g a b rid).nodes := by
  intro x hx
  exact Finset.mem_insert_of_mem (Finset.mem_insert_of_mem hx)

lemma add_rxn_edges_nodes_mono (cfg : IgnoreCfg) (g : GraphM) (r : RxnM) :
    g.nodes ⊆ (add_rxn_edges cfg g r).nodes := by
  rw [add_rxn_edges]
  have hprod : ∀ (l : List String) (g2 : GraphM) (a : String),
      g2.nodes ⊆ (l.foldl (fun g3 b => add_edge g3 a b r.id) g2).nodes := by
    intro l
    induction l with
    | nil => intro g2 a; exact fun x hx => hx
    | cons b rest ihb =>
        intro g2 a
        rw [List.foldl_cons]
        exact fun x hx => ihb _ a (add_edge_nodes_mono g2 a b r.id hx)
  have hreact : ∀ (l : List String) (g2 : GraphM),
      g2.nodes ⊆ (l.foldl
        (fun g2 a => (products cfg r).foldl (fun g3 b => add_edge g3 a b r.id) g2)
        g2).nodes := by
    intro l
    induction l with
    | nil => intro g2; exact fun x hx => hx
    | cons a rest iha =>
        intro g2
        rw [List.foldl_cons]
        exact fun x hx => iha _ (hprod (products cfg r) g2 a hx)
  exact hreact (reactants cfg r) g

lemma build_nodes_mono (cfg : IgnoreCfg) :
    ∀ (rxns : List RxnM) (g : GraphM),
      g.nodes ⊆ (rxns.foldl (add_rxn_edges cfg) g).nodes := by
  intro rxns
  induction rxns with
  | nil => intro g; exact fun x hx => hx
  | cons r rest ih =>
      intro g
      rw [List.foldl_cons]
      exact fun x hx => ih _ (add_rxn_edges_nodes_mono cfg g r hx)

lemma mem_kept_met_ids (cfg : IgnoreCfg) (rxns : List RxnM) (r : RxnM)
    (hr : r ∈ rxns) (m : String) (hm : m ∈ (retained_mets cfg r).map Prod.fst) :
    m ∈ kept_met_ids cfg rxns := by
  have hfold : ∀ (l : List RxnM) (a : Finset String),
      l.foldl (fun acc r2 => acc ∪ ((retained_mets cfg r2).map Prod.fst).toFinset) a
        = a ∪ l.toFinset.biUnion (fun r2 => ((retained_mets cfg r2).map Prod.fst).toFinset) := by
    intro l
    induction l with
    | nil => intro a; simp
    | cons x xs ihx =>
        intro a
        rw [List.foldl_cons, ihx, List.toFinset_cons, Finset.biUnion_insert,
          Finset.union_assoc]
  rw [kept_met_ids, hfold, Finset.empty_union, Finset.mem_biUnion]
  exact ⟨r, List.mem_toFinset.mpr hr, List.mem_toFinset.mpr hm⟩

/-- C6: after `create_new_stoichiometric_matrix`, the `rxn_id` attribute
of every ordered node pair `(a, b)` is the identifier of the last-processed
reaction whose retained reactants contain `a` and retained products
contain `b` (last-writer-wins; no such reaction means no edge), and every
retained metabolite of any reaction is a node of the graph even when it
has no incident edges. -/
theorem create_new_stoichiometric_matrix_spec (cfg : IgnoreCfg) (rxns : List RxnM)
    (a b : String) :
    (create_new_stoichiometric_matrix cfg rxns).edge a b
      = (rxns.reverse.find? (fun r => induces_edge cfg r a b)).elim none
          (fun r => some r.id)
    ∧ ∀ r, r ∈ rxns → ∀ m, m ∈ (retained_mets cfg r).map Prod.fst →
        m ∈ (create_new_stoichiometric_matrix cfg rxns).nodes := by
  constructor
  · rw [create_new_stoichiometric_matrix, build_edge]
  · intro r hr m hm
    rw [create_new_stoichiometric_matrix]
    exact build_nodes_mono cfg rxns _ (mem_kept_met_ids cfg rxns r hr m hm)

/-- Builder inputs for the witness: water is ignorable, `R1` and `R2`
both induce the edge `A → B`, and `C` is a retained metabolite with
coefficient `0` that sits on no edge. -/
def igC6 : IgnoreCfg :=
  { cofactor_pairs := ["h2o"], small_metabolites := [], inorganics := [] }

def rxnsC6 : List RxnM :=
  [ { id := "R1", mets := [("A", -1), ("B", 1), ("h2o", 1)] },
    { id := "R2", mets := [("A", -1), ("B", 2), ("C", 0)] } ]

/-- Witness for C6: the duplicated edge `A → B` carries the identifier of
the later reaction `R2`, the ignorable `h2o` is not a node, and the
edge-less retained metabolite `C` is a node. -/
theorem create_new_stoichiometric_matrix_spec_witness :
    (create_new_stoichiometric_matrix igC6 rxnsC6).edge "A" "B" = some "R2"
    ∧ "h2o" ∉ (create_new_stoichiometric_matrix igC6 rxnsC6).nodes
    ∧ "C" ∈ (create_new_stoichiometric_matrix igC6 rxnsC6).nodes := by
  refine ⟨?_, by decide, ?_⟩
  · rw [(create_new_stoichiometric_matrix_spec igC6 rxnsC6 "A" "B").1]
    decide
  · exact (create_new_stoichiometric_matrix_spec igC6 rxnsC6 "A" "B").2
      { id := "R2", mets := [("A", -1), ("B", 2), ("C", 0)] } (by decide) "C" (by decide)

/-- A reaction of the opaque network representation: its identifier and
the identifiers of its metabolites. -/
structure CobraRxn where
  id : String
  mets : List String
deriving DecidableEq

/-- The opaque network representation (`self._gem`, `self._redgem`):
reactions and metabolites. -/
structure CobraModel where
  reactions : List CobraRxn
  metabolites : List String
deriving DecidableEq

/-- The reactions of `m` whose identifiers are in `toRemove`. -/
def removed_of (m : CobraModel) (toRemove : Finset String) : List CobraRxn :=
  m.reactions.filter (fun r0 => decide (r0.id ∈ toRemove))

/-- The reactions of `m` that survive the removal. -/
def kept_of (m : CobraModel) (toRemove : Finset String) : List CobraRxn :=
  m.reactions.filter (fun r0 => decide (r0.id ∉ toRemove))

/-- A metabolite is orphaned by removing the reaction-id set `toRemove`
when it belongs to some removed reaction and to no kept reaction. -/
def orphaned (m : CobraModel) (toRemove : Finset String) (met : String) : Bool :=
  decide (∃ r ∈ removed_of m toRemove, met ∈ r.mets)
    && decide (∀ r ∈ kept_of m toRemove, met ∉ r.mets)

/-- Modelled from the spec: `remove_reactions(to_remove, True)` of the
underlying network representation (outside this repository) removes the
listed reactions from the working copy, cascading removal of now-orphaned
metabolites. -/
def remove_reactions (m : CobraModel) (toRemove : Finset String) : CobraModel :=
  { reactions := kept_of m toRemove
    metabolites := m.metabolites.filter (fun met => !(orphaned m toRemove met)) }

/-- The state `extract_sub_network` reads and writes: the reaction-side
and metabolite-side bookkeeping dictionaries, the extracellular list, the
original network `self._gem` and the working copy `self._redgem`. -/
structure RedGemState where
  subRxns : String → Finset String
  interRxns : String → String → Nat → Finset String
  extraRxns : String → Nat → Finset String
  subMets : String → Finset String
  interMets : String → String → Nat → Finset String
  extraMets : String → Nat → Finset String
  extracellular : Finset String
  subsystems : List String
  d : Nat
  n : Nat
  gem : CobraModel
  redgem : CobraModel

/-- The reaction-side pruner input `extract_sub_network` derives from
`self` (redgem.py line 352 gives the base set from `self._gem.reactions`). -/
def pruner_input (st : RedGemState) : PrunerIn :=
  { allRxns := (st.gem.reactions.map CobraRxn.id).toFinset
    subRxns := st.subRxns
    interRxns := st.interRxns
    extraRxns := st.extraRxns
    subsystems := st.subsystems
    d := st.d
    n := st.n }

/-- Embedding of the `to_remove_metabolites` computation of
`extract_sub_network` (redgem.py lines 351, 357, 365-366, 369, 376-377):
computed in full but never applied to any network. -/
def to_remove_metabolites (st : RedGemState) : Finset String :=
  let m1 := st.subsystems.foldl (fun acc name => acc \ st.subMets name)
    st.gem.metabolites.toFinset
  let m2 := st.subsystems.foldl (fun acc i =>
    st.subsystems.foldl (fun acc2 j =>
      (List.range (st.d + 1)).foldl (fun acc3 k => acc3 \ st.interMets i j k) acc2) acc) m1
  let m3 := m2 \ st.extracellular
  st.subsystems.foldl (fun acc i =>
    (List.range (st.d + 1)).foldl (fun acc2 k => acc2 \ st.extraMets i k) acc) m3

/-- Embedding of the state effect of `extract_sub_network` (redgem.py
lines 348-381): the only mutation is
`self._redgem.remove_reactions(to_remove_reactions, True)` (line 380);
the direct metabolite removal at line 381 is commented out, and
`self._gem` is only read. -/
def extract_sub_network (st : RedGemState) : RedGemState :=
  { st with redgem := remove_reactions st.redgem (to_remove_reactions (pruner_input st)) }

/-- C9: `extract_sub_network` never mutates the original network; it
removes exactly the to-remove reactions from the working copy; a
metabolite of the working copy disappears precisely when the reaction
removal orphans it (the cascade inside the removal operation); and a
metabolite of the computed — but never applied — to-remove-metabolites
set that still belongs to a kept reaction survives, because no direct
metabolite-removal operation is performed. -/
theorem extract_sub_network_frame (st : RedGemState) :
    (extract_sub_network st).gem = st.gem
    ∧ (extract_sub_network st).redgem.reactions
        = st.redgem.reactions.filter
            (fun r => decide (r.id ∉ to_remove_reactions (pruner_input st)))
    ∧ (∀ met, met ∈ (extract_sub_network st).redgem.metabolites
        ↔ met ∈ st.redgem.metabolites
          ∧ ¬(orphaned st.redgem (to_remove_reactions (pruner_input st)) met = true))
    ∧ (∀ met, met ∈ to_remove_metabolites st → met ∈ st.redgem.metabolites →
        (∃ r, r ∈ st.redgem.reactions
          ∧ r.id ∉ to_remove_reactions (pruner_input st) ∧ met ∈ r.mets) →
        met ∈ (extract_sub_network st).redgem.metabolites) := by
  refine ⟨rfl, rfl, ?_, ?_⟩
  · intro met
    show met ∈ st.redgem.metabolites.filter
        (fun met => !(orphaned st.redgem (to_remove_reactions (pruner_input st)) met)) ↔ _
    rw [List.mem_filter]
    simp [Bool.not_eq_true]
  · intro met hmet hin ⟨r, hr, hrid, hmr⟩
    show met ∈ st.redgem.metabolites.filter
        (fun met => !(orphaned st.redgem (to_remove_reactions (pruner_input st)) met))
    rw [List.mem_filter]
    refine ⟨hin, ?_⟩
    have hB : decide (∀ r2 ∈ kept_of st.redgem (to_remove_reactions (pruner_input st)),
        met ∉ r2.mets) = false := by
      refine decide_eq_false ?_
      intro hall
      refine hall r ?_ hmr
      rw [kept_of, List.mem_filter]
      exact ⟨hr, by simpa using hrid⟩
    rw [orphaned, hB, Bool.and_false]
    rfl

/-- The network used by the C9 witness: reaction `RK` (kept, touching
`M2`) and reaction `RD` (removed, touching `M3`). -/
def gemC9 : CobraModel :=
  { reactions := [ { id := "RK", mets := ["M2"] }, { id := "RD", mets := ["M3"] } ]
    metabolites := ["M1", "M2", "M3"] }

/-- State for the C9 witness: one subsystem retaining reaction `RK` and
metabolite `M1`, so `to_remove_metabolites` contains `M2` and `M3`. -/
def stC9 : RedGemState :=
  { subRxns := fun s => if s = "S" then {"RK"} else ∅
    interRxns := fun _ _ _ => ∅
    extraRxns := fun _ _ => ∅
    subMets := fun s => if s = "S" then {"M1"} else ∅
    interMets := fun _ _ _ => ∅
    extraMets := fun _ _ => ∅
    extracellular := ∅
    subsystems := ["S"]
    d := 0
    n := 0
    gem := gemC9
    redgem := gemC9 }

/-- Witness for C9: `M2` is in the computed to-remove-metabolites set,
yet it survives the extraction because it belongs to the kept reaction
`RK` — the metabolite set is never directly pruned. -/
theorem extract_sub_network_frame_witness :
    "M2" ∈ to_remove_metabolites stC9
    ∧ "M2" ∈ (extract_sub_network stC9).redgem.metabolites := by
  refine ⟨by decide, ?_⟩
  refine (extract_sub_network_frame stC9).2.2.2 "M2" (by decide) (by decide) ?_
  exact ⟨{ id := "RK", mets := ["M2"] }, by decide, by decide, by decide⟩
